import Mathlib

/-!
Shallow embedding of `run_crawl.py` (SRU "Europese Richtlijnen" harvester).

The script walks an SRU catalog in pages, collects CELEX identifiers into a
set, sorts them, filters out already-processed ones against a JSON
checkpoint, fetches EUR-Lex content per identifier with bounded retries,
filters content by a minimum length, slices the identifier list into fixed
batches, pushes each batch to a dataset sink and, only after a successful
push, merges the batch's identifiers into the checkpoint.

External effects are modelled as explicit oracles:
  * the SRU endpoint is a function from `(startRecord, maximumRecords)` to
    either a transport/parse error or a parsed page (the code wraps the
    whole page handling in `try`/`except`, so both transport and parse
    failures land in the same error branch);
  * the per-URL HTTP endpoint is a function from the URL and the attempt
    index to `Option String` (`none` models a `requests` exception, which
    `get_with_retries` catches);
  * HTML stripping (BeautifulSoup) is an abstract `String → String`;
  * the Hugging Face push is an oracle `Nat → Bool` giving the outcome of
    the n-th attempted push (`false` models `push_to_hub` raising).

Sleeps (`time.sleep`) are recorded as data where a claim mentions them and
otherwise ignored.  Checkpoint writes inside the main loop are assumed to
succeed; the write-failure behaviour of `save_processed_celex` is modelled
separately at file level (`FileState`).
-/

/-- Configuration constant `BATCH_SIZE = 200` from the source. -/
def BATCH_SIZE : Nat := 200

/-- Configuration constant `GLOBAL_RUN_LIMIT = 2000` from the source. -/
def GLOBAL_RUN_LIMIT : Nat := 2000

/-- Configuration constant `RETRY_ATTEMPTS = 3` from the source. -/
def RETRY_ATTEMPTS : Nat := 3

/-- Configuration constant `RETRY_DELAY = 5` (seconds) from the source. -/
def RETRY_DELAY : Nat := 5

/-- Configuration constant `SRU_SOURCE` from the source. -/
def SRU_SOURCE : String := "Europese Richtlijnen"

/-- Result of `EURLEX_URL.format(celex=...)`. -/
def eurlexUrl (celex : String) : String :=
  "https://eur-lex.europa.eu/legal-content/NL/TXT/HTML/?uri=" ++ celex

/-- One SRU page as the code observes it: the list of `sru:record` entries,
each reduced to the optional text of its `dcterms:isPartOf` element, plus
the optional `sru:numberOfRecords` field of the same response. -/
structure SruPage where
  records : List (Option String)
  total : Option Nat
deriving DecidableEq

/-- The SRU endpoint: maps `(startRecord, maximumRecords)` to a
transport/parse error or a parsed page. -/
structure SruServer where
  page : Nat → Nat → Except Unit SruPage

/-- Observable log entry for one page request issued by
`fetch_sru_records`: the `startRecord` and `maximumRecords` parameters and
the outcome (`none` for a caught exception, otherwise the number of records
returned together with the reported `numberOfRecords`). -/
structure PageLog where
  start : Nat
  maxRec : Nat
  outcome : Option (Nat × Option Nat)
deriving DecidableEq

/-- Result of `fetch_sru_records`: the sorted list of unique CELEX numbers
it returns, plus the log of the page requests it issued. -/
structure SruResult where
  celex : List String
  log : List PageLog
deriving DecidableEq

/-- Lexicographic code-point comparison of character lists, the order by
which python's `sorted` compares strings. -/
def strLeB : List Char → List Char → Bool
  | [], _ => true
  | _ :: _, [] => false
  | a :: as, b :: bs =>
    if a.toNat < b.toNat then true
    else if b.toNat < a.toNat then false
    else strLeB as bs

/-- Lexicographic (code-point) order on strings. -/
def strLe (a b : String) : Prop := strLeB a.data b.data = true

instance : DecidableRel strLe :=
  fun a b => inferInstanceAs (Decidable (strLeB a.data b.data = true))

/-- One step of `celex_found.add(...)`: a record contributes its text when
the element is present and the text is truthy (non-empty); the set is kept
as an insertion-ordered duplicate-free list. -/
def addCelex (acc : List String) (r : Option String) : List String :=
  match r with
  | none => acc
  | some t => if t = "" then acc else if t ∈ acc then acc else acc ++ [t]

/-- The while-loop of `fetch_sru_records`, with explicit fuel.  Every
iteration either stops or strictly increases `tp` (records examined), and
the loop only runs while `tp < limit`, so fuel `limit + 1` is never
exhausted. -/
def sruGo (s : SruServer) (limit : Nat) :
    Nat → Nat → Nat → List String → List PageLog → SruResult
  | 0, _, _, found, log => ⟨found, log⟩
  | fuel + 1, current, tp, found, log =>
    if tp < limit then
      let maxRec := min 100 (limit - tp)
      match s.page current maxRec with
      | Except.error _ => ⟨found, log ++ [⟨current, maxRec, none⟩]⟩
      | Except.ok pg =>
        let log2 := log ++ [⟨current, maxRec, some (pg.records.length, pg.total)⟩]
        if pg.records.length = 0 then ⟨found, log2⟩
        else
          let found2 := pg.records.foldl addCelex found
          let nextStart := current + pg.records.length
          match pg.total with
          | none => ⟨found2, log2⟩
          | some T =>
            if T < nextStart then ⟨found2, log2⟩
            else sruGo s limit fuel nextStart (tp + pg.records.length) found2 log2
    else ⟨found, log⟩

/-- Model of `fetch_sru_records(start, limit)`: run the paging loop and
return `sorted(list(celex_found))` (python sorts strings by code-point
lexicographic order, `strLe`). -/
def fetch_sru_records (s : SruServer) (start limit : Nat) : SruResult :=
  let r := sruGo s limit (limit + 1) start 0 [] []
  ⟨r.celex.insertionSort strLe, r.log⟩

/-- Result of `get_with_retries`: the response body (or `none` after all
attempts failed), the number of attempts performed, and the sequence of
`time.sleep(RETRY_DELAY)` pauses taken between attempts. -/
structure RetryResult where
  response : Option String
  attemptCount : Nat
  sleeps : List Nat
deriving DecidableEq

/-- The `for attempt in range(RETRY_ATTEMPTS)` loop of `get_with_retries`.
`resp n` is the outcome of the n-th request (`none` models a caught
`requests.exceptions.RequestException`). -/
def getRetryGo (resp : Nat → Option String) :
    Nat → Nat → List Nat → RetryResult
  | attempt, 0, sleeps => ⟨none, attempt, sleeps⟩
  | attempt, remaining + 1, sleeps =>
    match resp attempt with
    | some body => ⟨some body, attempt + 1, sleeps⟩
    | none =>
      if attempt < RETRY_ATTEMPTS - 1 then
        getRetryGo resp (attempt + 1) remaining (sleeps ++ [RETRY_DELAY])
      else
        getRetryGo resp (attempt + 1) remaining sleeps

/-- Model of `get_with_retries(url)`, with the per-attempt outcomes of the
endpoint for that URL abstracted as `resp`. -/
def get_with_retries (resp : Nat → Option String) : RetryResult :=
  getRetryGo resp 0 RETRY_ATTEMPTS []

/-- Model of `fetch_eurlex_content(celex)`: build the URL, fetch with
retries, and on success strip the HTML (`stripF` abstracts
`strip_html`). -/
def fetch_eurlex_content (stripF : String → String)
    (resp : String → Nat → Option String) (celex : String) : Option String :=
  match (get_with_retries (resp (eurlexUrl celex))).response with
  | none => none
  | some body => some (stripF body)

/-- One row pushed to the dataset: the dict
`{"URL": ..., "Content": ..., "Source": ...}`. -/
structure Record where
  url : String
  content : String
  source : String
deriving DecidableEq

/-- The per-identifier body of the batch loop in `main`: fetch the content
and accept it only when it is truthy and its length exceeds 50
(`if content and len(content) > 50`). -/
def acceptedRecord (stripF : String → String)
    (resp : String → Nat → Option String) (celex : String) : Option Record :=
  match fetch_eurlex_content stripF resp celex with
  | none => none
  | some t =>
    if t ≠ "" ∧ 50 < t.length then some ⟨eurlexUrl celex, t, SRU_SOURCE⟩
    else none

/-- The `batch_data` built for one batch of identifiers. -/
def processBatch (stripF : String → String)
    (resp : String → Nat → Option String) (batch : List String) : List Record :=
  batch.filterMap (acceptedRecord stripF resp)

/-- The slices `celex_to_process[i:i+BATCH_SIZE]` for
`i = 0, bs, 2*bs, ...`, via structural fuel (any fuel at least the list
length is enough when `0 < bs`). -/
def chunkGo (bs : Nat) : Nat → List String → List (List String)
  | 0, _ => []
  | _ + 1, [] => []
  | fuel + 1, a :: rest => ((a :: rest).take bs) :: chunkGo bs fuel ((a :: rest).drop bs)

/-- All batch slices of `l` with batch size `bs`. -/
def chunkList (bs : Nat) (l : List String) : List (List String) :=
  chunkGo bs l.length l

/-- State of the batch loop in `main`: the in-memory `processed_celex` set
(equal to the checkpoint file's contents, since every successful push is
followed by `save_processed_celex`), the log of attempted pushes, the list
of identifier batches whose push succeeded and was committed, the batch
whose push failed (if any), and the number of pushes attempted so far. -/
structure LoopState where
  processed : Finset String
  sinkCalls : List (List Record)
  committed : List (List String)
  failedChunk : Option (List String)
  pushIdx : Nat
deriving DecidableEq

/-- The `for i in range(0, len(celex_to_process), BATCH_SIZE)` loop of
`main`: build `batch_data`; skip empty batches; otherwise push, and on
success merge the batch into `processed_celex` and save the checkpoint,
while on failure stop the run (`break`) without committing. -/
def deliverLoop (pushOk : Nat → Bool) (pd : List String → List Record) :
    LoopState → List (List String) → LoopState
  | st, [] => st
  | st, chunk :: rest =>
    let data := pd chunk
    if data = [] then deliverLoop pushOk pd st rest
    else if pushOk st.pushIdx then
      deliverLoop pushOk pd
        ⟨st.processed ∪ chunk.toFinset, st.sinkCalls ++ [data],
          st.committed ++ [chunk], st.failedChunk, st.pushIdx + 1⟩ rest
    else
      ⟨st.processed, st.sinkCalls ++ [data], st.committed, some chunk, st.pushIdx + 1⟩

/-- Result of one run of `main` (from the point where state is loaded;
authentication and the initial dataset download are outside the model):
the discovered sorted identifiers, the filtered and truncated list of
identifiers to process, and the final loop state. -/
structure MainResult where
  allCelex : List String
  toProcess : List String
  final : LoopState
deriving DecidableEq

/-- Model of `main()`: load the checkpoint (`processedInit`), harvest the
catalog, drop already-processed identifiers, exit early when nothing is
new, truncate to `GLOBAL_RUN_LIMIT`, and run the batch loop. -/
def mainRun (s : SruServer) (stripF : String → String)
    (resp : String → Nat → Option String) (pushOk : Nat → Bool)
    (processedInit : Finset String) : MainResult :=
  let allCelex := (fetch_sru_records s 1 GLOBAL_RUN_LIMIT).celex
  let newCelex := allCelex.filter (fun c => decide (c ∉ processedInit))
  if newCelex = [] then ⟨allCelex, [], ⟨processedInit, [], [], none, 0⟩⟩
  else
    let toProcess :=
      if GLOBAL_RUN_LIMIT < newCelex.length then newCelex.take GLOBAL_RUN_LIMIT
      else newCelex
    ⟨allCelex, toProcess,
      deliverLoop pushOk (processBatch stripF resp)
        ⟨processedInit, [], [], none, 0⟩ (chunkList BATCH_SIZE toProcess)⟩

/-- Contents of the checkpoint file, abstracted: absent, a well-formed JSON
array of identifier strings, or corrupt (any text that `json.load`
rejects — in particular any strict prefix of a well-formed array, which is
what a failure in the middle of `json.dump` leaves behind, because
`open(..., 'w')` has already truncated the file). -/
inductive FileState where
  | absent : FileState
  | valid : List String → FileState
  | corrupt : FileState
deriving DecidableEq

/-- How a call to `save_processed_celex` can go: the `open` itself fails
(file untouched), the write fails after the file was opened and truncated,
or everything succeeds. -/
inductive SaveOutcome where
  | openFail : SaveOutcome
  | midWriteFail : SaveOutcome
  | ok : SaveOutcome
deriving DecidableEq

/-- Model of `load_processed_celex`: a missing file or any exception while
reading/parsing yields the empty set. -/
def load_processed_celex : FileState → Finset String
  | FileState.absent => ∅
  | FileState.corrupt => ∅
  | FileState.valid ids => ids.toFinset

/-- Model of `save_processed_celex`: writes `sorted(list(processed))` as a
full replacement.  The exception handler only prints, so the resulting
file state is: previous contents if `open` failed, corrupt contents if the
dump failed after opening (the file was truncated by `open(..., 'w')`),
and the full serialized set on success. -/
def save_processed_celex (processed : Finset String) (prev : FileState) :
    SaveOutcome → FileState
  | SaveOutcome.openFail => prev
  | SaveOutcome.midWriteFail => FileState.corrupt
  | SaveOutcome.ok => FileState.valid (processed.sort (· ≤ ·))

/-- The number of records a logged page request returned (0 for an
errored request). -/
def pageSize (e : PageLog) : Nat :=
  match e.outcome with
  | none => 0
  | some (sz, _) => sz

/-- Relation between two consecutive logged page requests of one walk: the
walk only continued past `a` because `a` returned a positive number of
records and the next offset (which is `b`'s offset, `a.start` plus the
records returned) did not exceed the total reported on `a`. -/
def pageStep (a b : PageLog) : Prop :=
  ∃ sz T, a.outcome = some (sz, some T) ∧ 0 < sz ∧
    b.start = a.start + sz ∧ b.start ≤ T

/-- Invariant tying an accumulated request log to the offset the loop will
use next: the walk only reached this point because the last logged page was
non-empty and the next offset is within the reported total. -/
def linksTo (log : List PageLog) (current : Nat) : Prop :=
  ∀ e, log.getLast? = some e →
    ∃ sz T, e.outcome = some (sz, some T) ∧ 0 < sz ∧
      current = e.start + sz ∧ current ≤ T

/-- A string of n times the letter a, used as content of length n. -/
def strN (n : Nat) : String := String.mk (List.replicate n 'a')

/-- Catalog of 250 records that all expose the same identifier text, with
`numberOfRecords = 250`; used to observe the pagination pattern. -/
def server250 : SruServer :=
  ⟨fun start maxRec =>
    Except.ok ⟨List.replicate (min maxRec (250 + 1 - start)) (some "X"), some 250⟩⟩

/-- Catalog whose first page yields one identifier "A" and reports 10
records in total, and whose second page request fails. -/
def serverErr : SruServer :=
  ⟨fun start _ =>
    if start = 1 then Except.ok ⟨[some "A"], some 10⟩
    else Except.error ()⟩

/-- Catalog with exactly one record, identifier "A". -/
def serverOne : SruServer :=
  ⟨fun start maxRec =>
    if start = 1 ∧ 1 ≤ maxRec then Except.ok ⟨[some "A"], some 1⟩
    else Except.ok ⟨[], some 1⟩⟩

/-- Catalog with exactly two records, identifiers "A" and "B". -/
def serverAB : SruServer :=
  ⟨fun start maxRec =>
    if start = 1 ∧ 2 ≤ maxRec then Except.ok ⟨[some "A", some "B"], some 2⟩
    else Except.ok ⟨[], some 2⟩⟩

/-- Endpoint returning a 40-character body for every URL on every attempt. -/
def respShort : String → Nat → Option String := fun _ _ => some (strN 40)

/-- Endpoint returning a 60-character body for every URL on every attempt. -/
def respLong : String → Nat → Option String := fun _ _ => some (strN 60)

/-- Endpoint returning an empty body for the identifier "100" and a
51-character body for every other URL. -/
def respCex : String → Nat → Option String :=
  fun url _ => if url = eurlexUrl "100" then some "" else some (strN 51)

/-- Endpoint returning a 40-character body for the identifier "B" and a
60-character body for every other URL. -/
def respShortB : String → Nat → Option String :=
  fun url _ => if url = eurlexUrl "B" then some (strN 40) else some (strN 60)

/-! ### Order facts for the lexicographic comparison -/

theorem strLeB_total : ∀ a b : List Char, strLeB a b = true ∨ strLeB b a = true
  | [], _ => Or.inl rfl
  | _ :: _, [] => Or.inr rfl
  | a :: as, b :: bs => by
    by_cases h1 : a.toNat < b.toNat
    · left; simp [strLeB, h1]
    · by_cases h2 : b.toNat < a.toNat
      · right; simp [strLeB, h1, h2]
      · rcases strLeB_total as bs with h | h
        · left; simp [strLeB, h1, h2, h]
        · right; simp [strLeB, h1, h2, h]

theorem strLeB_trans : ∀ a b c : List Char,
    strLeB a b = true → strLeB b c = true → strLeB a c = true
  | [], _, _, _, _ => rfl
  | _ :: _, [], _, h, _ => by simp [strLeB] at h
  | _ :: _, _ :: _, [], _, h => by simp [strLeB] at h
  | a :: as, b :: bs, c :: cs, h1, h2 => by
    simp only [strLeB] at h1 h2 ⊢
    by_cases hba : b.toNat < a.toNat
    · have hab : ¬ a.toNat < b.toNat := by omega
      simp [hab, hba] at h1
    · by_cases hcb : c.toNat < b.toNat
      · have hbc : ¬ b.toNat < c.toNat := by omega
        simp [hbc, hcb] at h2
      · by_cases hab : a.toNat < b.toNat
        · have hx : a.toNat < c.toNat := by omega
          simp [hx]
        · by_cases hbc : b.toNat < c.toNat
          · have hx : a.toNat < c.toNat := by omega
            simp [hx]
          · have hac : ¬ a.toNat < c.toNat := by omega
            have hca : ¬ c.toNat < a.toNat := by omega
            simp only [hab, hba, if_false, ite_false] at h1
            simp only [hbc, hcb, if_false, ite_false] at h2
            simp only [hac, hca, if_false, ite_false]
            exact strLeB_trans as bs cs h1 h2

instance : IsTotal String strLe :=
  ⟨fun a b => strLeB_total a.data b.data⟩

instance : IsTrans String strLe :=
  ⟨fun a b c h1 h2 => strLeB_trans a.data b.data c.data h1 h2⟩

/-! ### The harvested identifier list is duplicate-free and sorted -/

theorem addCelex_nodup (acc : List String) (r : Option String) (h : acc.Nodup) :
    (addCelex acc r).Nodup := by
  cases r with
  | none => exact h
  | some t =>
    simp only [addCelex]
    split
    · exact h
    · split
      · exact h
      · rename_i hmem
        simp [List.nodup_append, h, hmem]

theorem foldl_addCelex_nodup (records : List (Option String)) (acc : List String)
    (h : acc.Nodup) : (records.foldl addCelex acc).Nodup := by
  induction records generalizing acc with
  | nil => exact h
  | cons r rs ih => exact ih _ (addCelex_nodup acc r h)

theorem sruGo_celex_nodup (s : SruServer) (L : Nat) :
    ∀ fuel current tp found log, found.Nodup →
      (sruGo s L fuel current tp found log).celex.Nodup := by
  intro fuel
  induction fuel with
  | zero => intro current tp found log h; exact h
  | succ fuel ih =>
    intro current tp found log h
    simp only [sruGo]
    split
    · split
      · exact h
      · split
        · exact h
        · split
          · exact foldl_addCelex_nodup _ _ h
          · split
            · exact foldl_addCelex_nodup _ _ h
            · exact ih _ _ _ _ (foldl_addCelex_nodup _ _ h)
    · exact h

theorem fetch_celex_pairwise (s : SruServer) (start limit : Nat) :
    (fetch_sru_records s start limit).celex.Pairwise (fun a b => strLe a b ∧ a ≠ b) := by
  have hnd : (sruGo s limit (limit + 1) start 0 [] []).celex.Nodup :=
    sruGo_celex_nodup s limit _ _ _ _ _ List.nodup_nil
  have hsorted : ((sruGo s limit (limit + 1) start 0 [] []).celex.insertionSort strLe).Sorted strLe :=
    List.sorted_insertionSort strLe _
  have hnd2 : ((sruGo s limit (limit + 1) start 0 [] []).celex.insertionSort strLe).Nodup :=
    (List.perm_insertionSort strLe _).symm.nodup hnd
  exact hsorted.and hnd2

theorem fetch_celex_nodup (s : SruServer) (start limit : Nat) :
    (fetch_sru_records s start limit).celex.Nodup :=
  (fetch_celex_pairwise s start limit).imp (fun h => h.2)

theorem toProcess_sublist_celex (s : SruServer) (stripF : String → String)
    (resp : String → Nat → Option String) (pushOk : Nat → Bool) (P0 : Finset String) :
    (mainRun s stripF resp pushOk P0).toProcess.Sublist
      (fetch_sru_records s 1 GLOBAL_RUN_LIMIT).celex := by
  simp only [mainRun]
  split
  · exact List.nil_sublist _
  · split
    · exact (List.take_sublist _ _).trans (List.filter_sublist _)
    · exact List.filter_sublist _

theorem toProcess_nodup (s : SruServer) (stripF : String → String)
    (resp : String → Nat → Option String) (pushOk : Nat → Bool) (P0 : Finset String) :
    (mainRun s stripF resp pushOk P0).toProcess.Nodup :=
  (fetch_celex_nodup s 1 GLOBAL_RUN_LIMIT).sublist
    (toProcess_sublist_celex s stripF resp pushOk P0)

theorem toProcess_not_in_P0 (s : SruServer) (stripF : String → String)
    (resp : String → Nat → Option String) (pushOk : Nat → Bool) (P0 : Finset String)
    (x : String) (hx : x ∈ (mainRun s stripF resp pushOk P0).toProcess) : x ∉ P0 := by
  revert hx
  simp only [mainRun]
  split
  · intro hx; simp at hx
  · split
    · intro hx
      have := (List.take_sublist _ _).subset hx
      simp only [List.mem_filter, decide_eq_true_iff] at this
      exact this.2
    · intro hx
      simp only [List.mem_filter, decide_eq_true_iff] at hx
      exact hx.2

/-- C9: the identifier sequence discovery hands to the pipeline has no
duplicates and is strictly ascending in lexicographic (code-point) string
order — identifiers are collected into a set and sorted before
processing — and the list `main` goes on to fetch and batch (its
`toProcess`) is a filtered prefix of it, hence also strictly ascending and
duplicate-free. -/
theorem discovery_sorted_nodup (s : SruServer) (start limit : Nat)
    (stripF : String → String) (resp : String → Nat → Option String)
    (pushOk : Nat → Bool) (P0 : Finset String) :
    (fetch_sru_records s start limit).celex.Pairwise (fun a b => strLe a b ∧ a ≠ b) ∧
    (mainRun s stripF resp pushOk P0).toProcess.Pairwise (fun a b => strLe a b ∧ a ≠ b) :=
  ⟨fetch_celex_pairwise s start limit,
    (fetch_celex_pairwise s 1 GLOBAL_RUN_LIMIT).sublist
      (toProcess_sublist_celex s stripF resp pushOk P0)⟩

/-! ### Pagination: the request log forms a chain -/

theorem chain_append_one {log : List PageLog} {e : PageLog} {current : Nat}
    (hch : List.Chain' pageStep log) (hlink : linksTo log current)
    (hstart : e.start = current) : List.Chain' pageStep (log ++ [e]) := by
  rw [List.chain'_append]
  refine ⟨hch, List.chain'_singleton e, ?_⟩
  intro x hx y hy
  simp only [List.head?_cons, Option.mem_def, Option.some.injEq] at hy
  subst hy
  rcases hlink x hx with ⟨sz, T, hout, hpos, hcur, hle⟩
  exact ⟨sz, T, hout, hpos, by omega, by omega⟩

theorem sruGo_chain (s : SruServer) (L : Nat) :
    ∀ fuel current tp found log, List.Chain' pageStep log → linksTo log current →
      List.Chain' pageStep (sruGo s L fuel current tp found log).log := by
  intro fuel
  induction fuel with
  | zero => intro current tp found log hch _; exact hch
  | succ fuel ih =>
    intro current tp found log hch hlink
    simp only [sruGo]
    split
    · split
      · exact chain_append_one hch hlink (by rfl)
      · split
        · exact chain_append_one hch hlink (by rfl)
        · split
          · exact chain_append_one hch hlink (by rfl)
          · split
            · exact chain_append_one hch hlink (by rfl)
            · refine ih _ _ _ _ (chain_append_one hch hlink (by rfl)) ?_
              intro e he
              rw [List.getLast?_concat] at he
              cases he
              rename_i T htot hT
              refine ⟨_, T, by rw [htot], ?_, rfl, ?_⟩ <;> omega
    · exact hch

theorem fetch_log_chain (s : SruServer) (start limit : Nat) :
    List.Chain' pageStep (fetch_sru_records s start limit).log :=
  sruGo_chain s limit _ start 0 [] [] List.chain'_nil (by intro e he; cases he)

/-- C3: against a catalog reporting 250 records with page size 100, the
walk issues exactly 3 page requests, at offsets 1, 101, 201, which return
100, 100 and 50 records; and in general consecutive logged requests of any
walk satisfy `pageStep`: the walk continued past a page only because it
returned a positive number of records and the next offset — the previous
offset plus that count, hence strictly larger — did not exceed the total
reported on that page.  Contrapositively, an empty page or a next offset
beyond the reported total ends the walk. -/
theorem pagination_complete (s : SruServer) (start limit : Nat) :
    (fetch_sru_records server250 1 GLOBAL_RUN_LIMIT).log =
      [⟨1, 100, some (100, some 250)⟩, ⟨101, 100, some (100, some 250)⟩,
        ⟨201, 100, some (50, some 250)⟩] ∧
    List.Chain' pageStep (fetch_sru_records s start limit).log :=
  ⟨by decide, fetch_log_chain s start limit⟩

/-! ### Discovery errors: caught, walk stopped, partial result returned -/

/-- C2 counterexample: on a catalog whose second page request raises, the
code catches the exception (`except ... break`), so the error is not
propagated: `fetch_sru_records` returns the identifiers discovered before
the failure (here `["A"]`, and the log shows the errored request), and
`main` goes on to process exactly that partial walk. -/
theorem discovery_error_counterexample :
    (fetch_sru_records serverErr 1 GLOBAL_RUN_LIMIT).celex = ["A"] ∧
    (fetch_sru_records serverErr 1 GLOBAL_RUN_LIMIT).log =
      [⟨1, 100, some (1, some 10)⟩, ⟨2, 100, none⟩] ∧
    (mainRun serverErr id respShort (fun _ => true) ∅).toProcess = ["A"] :=
  ⟨by decide, by decide, by decide⟩

/-- C2 amended: a transport/parse error while fetching a page does stop
the walk immediately — an errored request is always the last entry of the
log, no further page is requested — but the error is not propagated to the
caller: the identifiers discovered before the failure are returned as the
result of the walk (and `main` processes them). -/
theorem discovery_error_stops_walk (s : SruServer) (start limit : Nat)
    (pre post : List PageLog) (e : PageLog)
    (hdec : (fetch_sru_records s start limit).log = pre ++ e :: post)
    (he : e.outcome = none) :
    post = [] ∧ (fetch_sru_records serverErr 1 GLOBAL_RUN_LIMIT).celex = ["A"] := by
  refine ⟨?_, by decide⟩
  cases post with
  | nil => rfl
  | cons b post2 =>
    have hch := fetch_log_chain s start limit
    rw [hdec] at hch
    have h2 := (List.chain'_append.mp hch).2.1
    have hr : pageStep e b := (List.chain'_cons.mp h2).1
    rcases hr with ⟨sz, T, hout, _⟩
    rw [he] at hout
    cases hout

/-! ### Retry bound -/

/-- C6: against an endpoint that always fails, `get_with_retries` performs
exactly `RETRY_ATTEMPTS` attempts, sleeping `RETRY_DELAY` between
consecutive attempts and not after the last, and returns the soft failure
`none` instead of raising (every `RequestException` is caught inside the
loop); consequently `fetch_eurlex_content` also returns `none`. -/
theorem retry_bound (resp : Nat → Option String) (stripF : String → String)
    (respU : String → Nat → Option String) (celex : String)
    (h : ∀ n, resp n = none) (hU : ∀ u n, respU u n = none) :
    get_with_retries resp =
      ⟨none, RETRY_ATTEMPTS, List.replicate (RETRY_ATTEMPTS - 1) RETRY_DELAY⟩ ∧
    fetch_eurlex_content stripF respU celex = none := by
  constructor
  · show getRetryGo resp 0 RETRY_ATTEMPTS [] = _
    rw [show RETRY_ATTEMPTS = 2 + 1 from rfl, getRetryGo, h 0]
    rw [show (2 : Nat) = 1 + 1 from rfl]
    simp only [getRetryGo, h 1, h 2]
    decide
  · show (match (getRetryGo (respU (eurlexUrl celex)) 0 RETRY_ATTEMPTS []).response with
      | none => none
      | some body => some (stripF body)) = none
    rw [show RETRY_ATTEMPTS = 2 + 1 from rfl, getRetryGo, hU _ 0]
    rw [show (2 : Nat) = 1 + 1 from rfl]
    simp only [getRetryGo, hU _ 1, hU _ 2]
    rfl

/-- Closed instance of the retry bound at a concrete always-failing
endpoint. -/
theorem retry_bound_witness :
    get_with_retries (fun _ => none) =
      ⟨none, RETRY_ATTEMPTS, List.replicate (RETRY_ATTEMPTS - 1) RETRY_DELAY⟩ ∧
    fetch_eurlex_content id (fun _ _ => none) "32009L0001" = none :=
  retry_bound (fun _ => none) id (fun _ _ => none) "32009L0001"
    (fun _ => rfl) (fun _ _ => rfl)

/-! ### Checkpoint file semantics -/

/-- C7 counterexample: a failure in the middle of the checkpoint write does
not leave the previously persisted state intact and readable: `open(..., 'w')`
truncates the file first and `json.dump` is not atomic, so the file is left
corrupt (here: the previous valid checkpoint `["a"]` is destroyed and a
subsequent load degrades to the empty set instead of `{"a"}`). -/
theorem checkpoint_counterexample :
    save_processed_celex {"b"} (FileState.valid ["a"]) SaveOutcome.midWriteFail ≠
      FileState.valid ["a"] ∧
    load_processed_celex
      (save_processed_celex {"b"} (FileState.valid ["a"]) SaveOutcome.midWriteFail) = ∅ :=
  ⟨by decide, rfl⟩

/-- C7 amended: the checkpoint commit writes the full merged set as a
complete replacement of the file (the result is independent of the previous
contents, not an append), and a successful write round-trips through load;
a failure before the file is opened leaves the previous state intact, but a
failure during the write corrupts the checkpoint, which a later load
degrades to the empty set (non-fatal) rather than preserving the previous
state. -/
theorem checkpoint_semantics (p : Finset String) (prev : FileState) :
    save_processed_celex p prev SaveOutcome.ok =
      FileState.valid (p.sort (· ≤ ·)) ∧
    load_processed_celex (save_processed_celex p prev SaveOutcome.ok) = p ∧
    save_processed_celex p prev SaveOutcome.openFail = prev ∧
    load_processed_celex (save_processed_celex p prev SaveOutcome.midWriteFail) = ∅ :=
  ⟨rfl, Finset.sort_toFinset _ p, rfl, rfl⟩

/-! ### Batch loop characterizations -/

theorem deliverLoop_all_ok (pushOk : Nat → Bool) (pd : List String → List Record)
    (hok : ∀ n, pushOk n = true) :
    ∀ chunks st, deliverLoop pushOk pd st chunks =
      ⟨st.processed ∪ ((chunks.filter (fun ch => !(pd ch).isEmpty)).flatten).toFinset,
        st.sinkCalls ++ (chunks.filter (fun ch => !(pd ch).isEmpty)).map pd,
        st.committed ++ chunks.filter (fun ch => !(pd ch).isEmpty),
        st.failedChunk,
        st.pushIdx + (chunks.filter (fun ch => !(pd ch).isEmpty)).length⟩ := by
  intro chunks
  induction chunks with
  | nil =>
    intro st
    cases st
    simp [deliverLoop]
  | cons chunk rest ih =>
    intro st
    by_cases hdata : pd chunk = []
    · have hne : (!(pd chunk).isEmpty) = false := by simp [hdata]
      simp only [deliverLoop, if_pos hdata, ih st, List.filter_cons, hne]
      simp
    · have hne : (!(pd chunk).isEmpty) = true := by
        simp [List.isEmpty_iff, hdata]
      simp only [deliverLoop, if_neg hdata, hok st.pushIdx, if_true, ih, List.filter_cons, hne,
        List.flatten_cons, List.toFinset_append, List.map_cons, List.length_cons]
      simp only [LoopState.mk.injEq]
      refine ⟨?_, ?_, ?_, trivial, ?_⟩
      · simp [Finset.union_assoc]
      · simp
      · simp
      · omega

theorem deliverLoop_processed_committed (pushOk : Nat → Bool)
    (pd : List String → List Record) :
    ∀ chunks st, ∃ delta : List (List String),
      (deliverLoop pushOk pd st chunks).committed = st.committed ++ delta ∧
      (deliverLoop pushOk pd st chunks).processed =
        st.processed ∪ delta.flatten.toFinset := by
  intro chunks
  induction chunks with
  | nil => intro st; exact ⟨[], by simp [deliverLoop]⟩
  | cons chunk rest ih =>
    intro st
    by_cases hdata : pd chunk = []
    · rcases ih st with ⟨delta, h1, h2⟩
      exact ⟨delta, by simp only [deliverLoop, if_pos hdata]; exact ⟨h1, h2⟩⟩
    · by_cases hpush : pushOk st.pushIdx = true
      · rcases ih ⟨st.processed ∪ chunk.toFinset, st.sinkCalls ++ [pd chunk],
          st.committed ++ [chunk], st.failedChunk, st.pushIdx + 1⟩ with ⟨delta, h1, h2⟩
        refine ⟨chunk :: delta, ?_, ?_⟩
        · simp only [deliverLoop, if_neg hdata, hpush, if_true]
          rw [h1]
          simp
        · simp only [deliverLoop, if_neg hdata, hpush, if_true]
          rw [h2]
          simp [Finset.union_assoc]
      · rw [Bool.not_eq_true] at hpush
        refine ⟨[], ?_, ?_⟩ <;>
          simp [deliverLoop, if_neg hdata, hpush]

theorem deliverLoop_fail (pushOk : Nat → Bool) (pd : List String → List Record) :
    ∀ chunks st c, st.failedChunk = none →
      (deliverLoop pushOk pd st chunks).failedChunk = some c →
      ∃ pre post, chunks = pre ++ c :: post ∧ pd c ≠ [] ∧
        deliverLoop pushOk pd st chunks =
          ⟨st.processed ∪ ((pre.filter (fun ch => !(pd ch).isEmpty)).flatten).toFinset,
            st.sinkCalls ++ (pre.filter (fun ch => !(pd ch).isEmpty)).map pd ++ [pd c],
            st.committed ++ pre.filter (fun ch => !(pd ch).isEmpty),
            some c,
            st.pushIdx + (pre.filter (fun ch => !(pd ch).isEmpty)).length + 1⟩ := by
  intro chunks
  induction chunks with
  | nil =>
    intro st c h0 hfail
    rw [show deliverLoop pushOk pd st [] = st from rfl] at hfail
    rw [h0] at hfail
    cases hfail
  | cons chunk rest ih =>
    intro st c h0 hfail
    by_cases hdata : pd chunk = []
    · have hne : (!(pd chunk).isEmpty) = false := by simp [hdata]
      rw [show deliverLoop pushOk pd st (chunk :: rest) = deliverLoop pushOk pd st rest by
        simp [deliverLoop, hdata]] at hfail ⊢
      rcases ih st c h0 hfail with ⟨pre, post, hdec, hpd, hres⟩
      refine ⟨chunk :: pre, post, by rw [hdec]; rfl, hpd, ?_⟩
      rw [hres]
      simp [List.filter_cons, hne]
    · by_cases hpush : pushOk st.pushIdx = true
      · have hne : (!(pd chunk).isEmpty) = true := by simp [List.isEmpty_iff, hdata]
        have hstep : deliverLoop pushOk pd st (chunk :: rest) =
            deliverLoop pushOk pd ⟨st.processed ∪ chunk.toFinset, st.sinkCalls ++ [pd chunk],
              st.committed ++ [chunk], st.failedChunk, st.pushIdx + 1⟩ rest := by
          simp [deliverLoop, hdata, hpush]
        rw [hstep] at hfail ⊢
        rcases ih _ c (by simpa using h0) hfail with ⟨pre, post, hdec, hpd, hres⟩
        refine ⟨chunk :: pre, post, by rw [hdec]; rfl, hpd, ?_⟩
        rw [hres]
        simp only [List.filter_cons, hne, if_pos rfl, List.flatten_cons, List.toFinset_append,
          List.map_cons, List.length_cons, LoopState.mk.injEq]
        refine ⟨by simp [Finset.union_assoc], by simp, by simp, trivial, by simp; omega⟩
      · rw [Bool.not_eq_true] at hpush
        have hstep : deliverLoop pushOk pd st (chunk :: rest) =
            ⟨st.processed, st.sinkCalls ++ [pd chunk], st.committed, some chunk,
              st.pushIdx + 1⟩ := by
          simp [deliverLoop, hdata, hpush]
        rw [hstep] at hfail
        have hc : c = chunk := by
          simpa using hfail.symm
        subst hc
        refine ⟨[], rest, rfl, hdata, ?_⟩
        rw [hstep]
        simp

theorem deliverLoop_no_empty (pushOk : Nat → Bool) (pd : List String → List Record) :
    ∀ chunks st, [] ∉ st.sinkCalls →
      [] ∉ (deliverLoop pushOk pd st chunks).sinkCalls := by
  intro chunks
  induction chunks with
  | nil => intro st h; exact h
  | cons chunk rest ih =>
    intro st h
    by_cases hdata : pd chunk = []
    · rw [show deliverLoop pushOk pd st (chunk :: rest) = deliverLoop pushOk pd st rest by
        simp [deliverLoop, hdata]]
      exact ih st h
    · by_cases hpush : pushOk st.pushIdx = true
      · rw [show deliverLoop pushOk pd st (chunk :: rest) =
            deliverLoop pushOk pd ⟨st.processed ∪ chunk.toFinset, st.sinkCalls ++ [pd chunk],
              st.committed ++ [chunk], st.failedChunk, st.pushIdx + 1⟩ rest by
          simp [deliverLoop, hdata, hpush]]
        refine ih _ ?_
        simp only [List.mem_append, List.mem_singleton]
        rintro (hmem | hmem)
        · exact h hmem
        · exact hdata hmem.symm
      · rw [Bool.not_eq_true] at hpush
        rw [show deliverLoop pushOk pd st (chunk :: rest) =
            ⟨st.processed, st.sinkCalls ++ [pd chunk], st.committed, some chunk,
              st.pushIdx + 1⟩ by simp [deliverLoop, hdata, hpush]]
        simp only [List.mem_append, List.mem_singleton]
        rintro (hmem | hmem)
        · exact h hmem
        · exact hdata hmem.symm

theorem deliverLoop_skip_all (pushOk : Nat → Bool) (pd : List String → List Record) :
    ∀ chunks st, (∀ ch ∈ chunks, pd ch = []) →
      deliverLoop pushOk pd st chunks = st := by
  intro chunks
  induction chunks with
  | nil => intro st _; rfl
  | cons chunk rest ih =>
    intro st h
    have hdata : pd chunk = [] := h chunk (List.mem_cons_self chunk rest)
    rw [show deliverLoop pushOk pd st (chunk :: rest) = deliverLoop pushOk pd st rest by
      simp [deliverLoop, hdata]]
    exact ih st (fun ch hch => h ch (List.mem_cons_of_mem _ hch))

theorem deliverLoop_calls (pushOk : Nat → Bool) (pd : List String → List Record) :
    ∀ chunks st call, call ∈ (deliverLoop pushOk pd st chunks).sinkCalls →
      call ∈ st.sinkCalls ∨ ∃ ch ∈ chunks, call = pd ch := by
  intro chunks
  induction chunks with
  | nil => intro st call h; exact Or.inl h
  | cons chunk rest ih =>
    intro st call h
    by_cases hdata : pd chunk = []
    · rw [show deliverLoop pushOk pd st (chunk :: rest) = deliverLoop pushOk pd st rest by
        simp [deliverLoop, hdata]] at h
      rcases ih st call h with h2 | ⟨ch, hch, hcall⟩
      · exact Or.inl h2
      · exact Or.inr ⟨ch, List.mem_cons_of_mem _ hch, hcall⟩
    · by_cases hpush : pushOk st.pushIdx = true
      · rw [show deliverLoop pushOk pd st (chunk :: rest) =
            deliverLoop pushOk pd ⟨st.processed ∪ chunk.toFinset, st.sinkCalls ++ [pd chunk],
              st.committed ++ [chunk], st.failedChunk, st.pushIdx + 1⟩ rest by
          simp [deliverLoop, hdata, hpush]] at h
        rcases ih _ call h with h2 | ⟨ch, hch, hcall⟩
        · simp only [List.mem_append, List.mem_singleton] at h2
          rcases h2 with h3 | h3
          · exact Or.inl h3
          · exact Or.inr ⟨chunk, List.mem_cons_self _ _, h3⟩
        · exact Or.inr ⟨ch, List.mem_cons_of_mem _ hch, hcall⟩
      · rw [Bool.not_eq_true] at hpush
        rw [show deliverLoop pushOk pd st (chunk :: rest) =
            ⟨st.processed, st.sinkCalls ++ [pd chunk], st.committed, some chunk,
              st.pushIdx + 1⟩ by simp [deliverLoop, hdata, hpush]] at h
        simp only [List.mem_append, List.mem_singleton] at h
        rcases h with h3 | h3
        · exact Or.inl h3
        · exact Or.inr ⟨chunk, List.mem_cons_self _ _, h3⟩

/-! ### Chunk slicing facts -/

theorem chunkGo_nil (bs : Nat) : ∀ fuel, chunkGo bs fuel [] = [] := by
  intro fuel; cases fuel <;> rfl

theorem chunkGo_flatten (bs : Nat) (hbs : 0 < bs) :
    ∀ fuel l, l.length ≤ fuel → (chunkGo bs fuel l).flatten = l := by
  intro fuel
  induction fuel with
  | zero =>
    intro l hl
    have : l = [] := List.length_eq_zero.mp (Nat.le_zero.mp hl)
    subst this; rfl
  | succ fuel ih =>
    intro l hl
    cases l with
    | nil => rfl
    | cons a rest =>
      simp only [chunkGo, List.flatten_cons]
      rw [ih _ (by simp at hl ⊢; omega)]
      exact List.take_append_drop bs (a :: rest)

theorem chunkList_flatten (bs : Nat) (hbs : 0 < bs) (l : List String) :
    (chunkList bs l).flatten = l :=
  chunkGo_flatten bs hbs l.length l le_rfl

theorem chunkGo_shape (bs : Nat) (hbs : 0 < bs) :
    ∀ fuel l ch, ch ∈ chunkGo bs fuel l → ch ≠ [] ∧ ch.length ≤ bs := by
  intro fuel
  induction fuel with
  | zero => intro l ch h; cases h
  | succ fuel ih =>
    intro l ch h
    cases l with
    | nil => cases h
    | cons a rest =>
      simp only [chunkGo, List.mem_cons] at h
      rcases h with h | h
      · subst h
        constructor
        · cases bs with
          | zero => omega
          | succ bs2 => simp
        · exact List.length_take_le _ _
      · exact ih _ _ h

theorem chunkGo_sizes (bs : Nat) (hbs : 0 < bs) :
    ∀ fuel l i, l.length ≤ fuel → i + 1 < (chunkGo bs fuel l).length →
      ((chunkGo bs fuel l).getD i []).length = bs := by
  intro fuel
  induction fuel with
  | zero => intro l i _ h2; simp [chunkGo] at h2
  | succ fuel ih =>
    intro l i hl h2
    cases l with
    | nil => simp [chunkGo] at h2
    | cons a rest =>
      simp only [chunkGo] at h2 ⊢
      cases i with
      | zero =>
        simp only [List.getD_cons_zero]
        have hdrop : chunkGo bs fuel ((a :: rest).drop bs) ≠ [] := by
          intro hcon
          rw [hcon] at h2
          simp at h2
        have : (a :: rest).drop bs ≠ [] := by
          intro hcon
          rw [hcon, chunkGo_nil] at hdrop
          exact hdrop rfl
        have hlen : bs < (a :: rest).length := by
          by_contra hcon
          push_neg at hcon
          rw [List.drop_eq_nil_of_le hcon] at this
          exact this rfl
        simp only [List.length_cons] at hlen
        simp [List.length_take]
        omega
      | succ i2 =>
        simp only [List.getD_cons_succ]
        refine ih _ i2 (by simp at hl ⊢; omega) (by simpa using h2)

/-! ### Main-run plumbing -/

theorem mainRun_final_eq (s : SruServer) (stripF : String → String)
    (resp : String → Nat → Option String) (pushOk : Nat → Bool) (P0 : Finset String) :
    (mainRun s stripF resp pushOk P0).final = ⟨P0, [], [], none, 0⟩ ∨
    (mainRun s stripF resp pushOk P0).final =
      deliverLoop pushOk (processBatch stripF resp) ⟨P0, [], [], none, 0⟩
        (chunkList BATCH_SIZE (mainRun s stripF resp pushOk P0).toProcess) := by
  simp only [mainRun]
  split
  · exact Or.inl rfl
  · right
    split <;> rfl

theorem runFail_aux (stripF : String → String) (resp : String → Nat → Option String)
    (pushOk : Nat → Bool) (P0 : Finset String) (toProcess : List String)
    (hnodup : toProcess.Nodup) (hP0 : ∀ x ∈ toProcess, x ∉ P0) (c : List String)
    (hfail : (deliverLoop pushOk (processBatch stripF resp) ⟨P0, [], [], none, 0⟩
      (chunkList BATCH_SIZE toProcess)).failedChunk = some c) :
    (∀ x ∈ c, x ∉ (deliverLoop pushOk (processBatch stripF resp) ⟨P0, [], [], none, 0⟩
      (chunkList BATCH_SIZE toProcess)).processed) ∧
    ∃ pre post, chunkList BATCH_SIZE toProcess = pre ++ c :: post ∧
      (deliverLoop pushOk (processBatch stripF resp) ⟨P0, [], [], none, 0⟩
        (chunkList BATCH_SIZE toProcess)).sinkCalls =
      (pre.filter (fun ch => !(processBatch stripF resp ch).isEmpty)).map
          (processBatch stripF resp)
        ++ [processBatch stripF resp c] := by
  rcases deliverLoop_fail pushOk (processBatch stripF resp) (chunkList BATCH_SIZE toProcess)
    ⟨P0, [], [], none, 0⟩ c rfl hfail with ⟨pre, post, hdec, hpd, hres⟩
  have hflat : (chunkList BATCH_SIZE toProcess).flatten = toProcess :=
    chunkList_flatten BATCH_SIZE (by decide) toProcess
  have hflat2 : pre.flatten ++ (c ++ post.flatten) = toProcess := by
    rw [← hflat, hdec]
    simp
  constructor
  · intro x hx
    rw [hres]
    simp only [Finset.mem_union, List.mem_toFinset, not_or]
    constructor
    · refine hP0 x ?_
      rw [← hflat, hdec]
      simp only [List.flatten_append, List.flatten_cons, List.mem_append]
      exact Or.inr (Or.inl hx)
    · intro hmem
      rcases List.mem_flatten.mp hmem with ⟨ch, hch, hxch⟩
      have hchpre : ch ∈ pre := List.mem_of_mem_filter hch
      have hxpre : x ∈ pre.flatten := List.mem_flatten_of_mem hchpre hxch
      have hnd2 : (pre.flatten ++ (c ++ post.flatten)).Nodup := by
        rw [hflat2]; exact hnodup
      rcases List.nodup_append.mp hnd2 with ⟨_, _, hdisj⟩
      exact hdisj hxpre (by simp [hx])
  · exact ⟨pre, post, hdec, by rw [hres]; simp⟩

/-- C1: when a batch push raises, none of that batch's identifiers are
merged into the persisted ProcessedSet checkpoint (they were not in it to
begin with, having been filtered as new, and the commit for the failed
batch is skipped), and the run breaks immediately: the failed delivery is
the last sink call of the run, every earlier call having been a committed
batch. -/
theorem failed_batch_not_committed (s : SruServer) (stripF : String → String)
    (resp : String → Nat → Option String) (pushOk : Nat → Bool) (P0 : Finset String)
    (c : List String)
    (hfail : (mainRun s stripF resp pushOk P0).final.failedChunk = some c) :
    (∀ x ∈ c, x ∉ (mainRun s stripF resp pushOk P0).final.processed) ∧
    ∃ pre post,
      chunkList BATCH_SIZE (mainRun s stripF resp pushOk P0).toProcess = pre ++ c :: post ∧
      (mainRun s stripF resp pushOk P0).final.sinkCalls =
        (pre.filter (fun ch => !(processBatch stripF resp ch).isEmpty)).map
            (processBatch stripF resp)
          ++ [processBatch stripF resp c] := by
  rcases mainRun_final_eq s stripF resp pushOk P0 with heq | heq
  · rw [heq] at hfail
    cases hfail
  · rw [heq] at hfail ⊢
    exact runFail_aux stripF resp pushOk P0 _
      (toProcess_nodup s stripF resp pushOk P0)
      (toProcess_not_in_P0 s stripF resp pushOk P0) c hfail

/-- Closed instance of C1: one discovered identifier with long content, a
sink that always fails; the identifier is absent from the checkpoint after
the run. -/
theorem failed_batch_not_committed_witness :
    "A" ∉ (mainRun serverOne id respLong (fun _ => false) ∅).final.processed :=
  (failed_batch_not_committed serverOne id respLong (fun _ => false) ∅ ["A"]
    (by decide)).1 "A" (by decide)

/-! ### Run-size bounds -/

theorem foldl_addCelex_length (records : List (Option String)) (acc : List String) :
    (records.foldl addCelex acc).length ≤ acc.length + records.length := by
  induction records generalizing acc with
  | nil => simp
  | cons r rs ih =>
    have hstep : (addCelex acc r).length ≤ acc.length + 1 := by
      cases r with
      | none => simp [addCelex]
      | some t =>
        simp only [addCelex]
        split
        · omega
        · split
          · omega
          · simp
    calc ((r :: rs).foldl addCelex acc).length
        = (rs.foldl addCelex (addCelex acc r)).length := rfl
      _ ≤ (addCelex acc r).length + rs.length := ih _
      _ ≤ acc.length + 1 + rs.length := by omega
      _ = acc.length + (r :: rs).length := by simp; omega

theorem sruGo_celex_length (s : SruServer) (L : Nat)
    (hcomp : ∀ start maxRec pg, s.page start maxRec = Except.ok pg →
      pg.records.length ≤ maxRec) :
    ∀ fuel current tp found log, found.length ≤ tp → tp ≤ L →
      (sruGo s L fuel current tp found log).celex.length ≤ L := by
  intro fuel
  induction fuel with
  | zero => intro current tp found log h1 h2; exact le_trans h1 h2
  | succ fuel ih =>
    intro current tp found log h1 h2
    simp only [sruGo]
    split
    · split
      · exact le_trans h1 h2
      · rename_i pg hpg
        have hlen : pg.records.length ≤ min 100 (L - tp) := hcomp _ _ _ hpg
        have hfound2 : (pg.records.foldl addCelex found).length ≤ tp + pg.records.length :=
          le_trans (foldl_addCelex_length _ _) (by omega)
        split
        · exact le_trans h1 h2
        · split
          · exact le_trans hfound2 (by omega)
          · split
            · exact le_trans hfound2 (by omega)
            · exact ih _ _ _ _ hfound2 (by omega)
    · exact le_trans h1 h2

theorem fetch_celex_length (s : SruServer) (start L : Nat)
    (hcomp : ∀ st maxRec pg, s.page st maxRec = Except.ok pg →
      pg.records.length ≤ maxRec) :
    (fetch_sru_records s start L).celex.length ≤ L := by
  show ((sruGo s L (L + 1) start 0 [] []).celex.insertionSort strLe).length ≤ L
  rw [List.length_insertionSort]
  exact sruGo_celex_length s L hcomp (L + 1) start 0 [] [] (by simp) (by omega)

theorem sruGo_sizes_sum (s : SruServer) (L : Nat)
    (hcomp : ∀ start maxRec pg, s.page start maxRec = Except.ok pg →
      pg.records.length ≤ maxRec) :
    ∀ fuel current tp log found,
      (((sruGo s L fuel current tp found log).log).map pageSize).sum ≤
        (log.map pageSize).sum + (L - tp) := by
  intro fuel
  induction fuel with
  | zero => intro current tp log found; exact Nat.le_add_right _ _
  | succ fuel ih =>
    intro current tp log found
    simp only [sruGo]
    split
    · split
      · simp only [List.map_append, List.map_cons, List.map_nil, List.sum_append,
          List.sum_cons, List.sum_nil, pageSize]
        omega
      · rename_i pg hpg
        have hlen : pg.records.length ≤ min 100 (L - tp) := hcomp _ _ _ hpg
        split
        · simp only [List.map_append, List.map_cons, List.map_nil, List.sum_append,
            List.sum_cons, List.sum_nil, pageSize]
          omega
        · split
          · simp only [List.map_append, List.map_cons, List.map_nil, List.sum_append,
              List.sum_cons, List.sum_nil, pageSize]
            omega
          · split
            · simp only [List.map_append, List.map_cons, List.map_nil, List.sum_append,
                List.sum_cons, List.sum_nil, pageSize]
              omega
            · refine le_trans (ih _ _ _ _) ?_
              simp only [List.map_append, List.map_cons, List.map_nil, List.sum_append,
                List.sum_cons, List.sum_nil, pageSize]
              omega
    · exact Nat.le_add_right _ _

theorem serverOne_comp : ∀ st maxRec pg, serverOne.page st maxRec = Except.ok pg →
    pg.records.length ≤ maxRec := by
  intro st maxRec pg h
  simp only [serverOne] at h
  split at h
  · rename_i hcond
    cases h
    simpa using hcond.2
  · cases h
    simp

/-- C10: every run processes at most `GLOBAL_RUN_LIMIT` identifiers: the
list of new identifiers that `main` goes on to fetch has length at most
`GLOBAL_RUN_LIMIT` (it is truncated before fetching begins), and against a
compliant endpoint (returning at most the requested number of records)
discovery examines at most `GLOBAL_RUN_LIMIT` catalog records in total —
it stops requesting pages once that many have been seen. -/
theorem global_run_limit (s : SruServer) (stripF : String → String)
    (resp : String → Nat → Option String) (pushOk : Nat → Bool) (P0 : Finset String)
    (hcomp : ∀ st maxRec pg, s.page st maxRec = Except.ok pg →
      pg.records.length ≤ maxRec) :
    (mainRun s stripF resp pushOk P0).toProcess.length ≤ GLOBAL_RUN_LIMIT ∧
    ((fetch_sru_records s 1 GLOBAL_RUN_LIMIT).log.map pageSize).sum ≤ GLOBAL_RUN_LIMIT := by
  constructor
  · simp only [mainRun]
    split
    · simp
    · split
      · exact List.length_take_le _ _
      · rename_i hlen
        simpa using Nat.le_of_not_lt hlen
  · have h := sruGo_sizes_sum s GLOBAL_RUN_LIMIT hcomp (GLOBAL_RUN_LIMIT + 1) 1 0 [] []
    simpa using h

/-- Closed instance of C10 at a concrete compliant one-record catalog. -/
theorem global_run_limit_witness :
    (mainRun serverOne id respShort (fun _ => true) ∅).toProcess.length ≤ GLOBAL_RUN_LIMIT ∧
    ((fetch_sru_records serverOne 1 GLOBAL_RUN_LIMIT).log.map pageSize).sum ≤
      GLOBAL_RUN_LIMIT :=
  global_run_limit serverOne id respShort (fun _ => true) ∅ serverOne_comp

/-! ### Idempotency -/

theorem mainRun_cases (s : SruServer) (stripF : String → String)
    (resp : String → Nat → Option String) (pushOk : Nat → Bool) (P0 : Finset String) :
    ((fetch_sru_records s 1 GLOBAL_RUN_LIMIT).celex.filter (fun c => decide (c ∉ P0)) = [] ∧
      (mainRun s stripF resp pushOk P0).final = ⟨P0, [], [], none, 0⟩ ∧
      (mainRun s stripF resp pushOk P0).toProcess = []) ∨
    (mainRun s stripF resp pushOk P0).final =
      deliverLoop pushOk (processBatch stripF resp) ⟨P0, [], [], none, 0⟩
        (chunkList BATCH_SIZE (mainRun s stripF resp pushOk P0).toProcess) := by
  simp only [mainRun]
  split
  · rename_i h
    exact Or.inl ⟨h, rfl, rfl⟩
  · right
    split <;> rfl

theorem mainRun_toProcess_small (s : SruServer) (stripF : String → String)
    (resp : String → Nat → Option String) (pushOk : Nat → Bool) (P0 : Finset String)
    (hsmall : (fetch_sru_records s 1 GLOBAL_RUN_LIMIT).celex.length ≤ GLOBAL_RUN_LIMIT) :
    (mainRun s stripF resp pushOk P0).toProcess =
      (fetch_sru_records s 1 GLOBAL_RUN_LIMIT).celex.filter (fun c => decide (c ∉ P0)) := by
  simp only [mainRun]
  split
  · rename_i h
    exact h.symm
  · split
    · rename_i hlt
      exfalso
      have hle := List.length_filter_le (fun c => decide (c ∉ P0))
        (fetch_sru_records s 1 GLOBAL_RUN_LIMIT).celex
      omega
    · rfl

/-- C8: running the pipeline a second time against an unchanged catalog,
starting from the ProcessedSet persisted by a first run whose pushes all
succeeded, delivers nothing: every identifier the second run would touch
was either committed in run 1 (and is filtered out) or deterministically
yields no Record, so every batch is empty and no sink call is made. -/
theorem idempotency (s : SruServer) (stripF : String → String)
    (resp : String → Nat → Option String) (P0 : Finset String)
    (hcomp : ∀ st maxRec pg, s.page st maxRec = Except.ok pg →
      pg.records.length ≤ maxRec) :
    (mainRun s stripF resp (fun _ => true)
      ((mainRun s stripF resp (fun _ => true) P0).final.processed)).final.sinkCalls = [] := by
  have hsmall : (fetch_sru_records s 1 GLOBAL_RUN_LIMIT).celex.length ≤ GLOBAL_RUN_LIMIT :=
    fetch_celex_length s 1 GLOBAL_RUN_LIMIT hcomp
  have hkey : ∀ x, x ∈ (fetch_sru_records s 1 GLOBAL_RUN_LIMIT).celex →
      x ∉ (mainRun s stripF resp (fun _ => true) P0).final.processed →
      acceptedRecord stripF resp x = none := by
    intro x hxA hxP1
    rcases mainRun_cases s stripF resp (fun _ => true) P0 with ⟨hfil, hfin, _⟩ | hfin
    · rw [hfin] at hxP1
      exfalso
      have hmem : x ∈ (fetch_sru_records s 1 GLOBAL_RUN_LIMIT).celex.filter
          (fun c => decide (c ∉ P0)) := by
        rw [List.mem_filter]
        exact ⟨hxA, by simpa using hxP1⟩
      rw [hfil] at hmem
      cases hmem
    · rw [hfin, deliverLoop_all_ok (fun _ => true) (processBatch stripF resp)
        (fun _ => rfl)] at hxP1
      have htp : (mainRun s stripF resp (fun _ => true) P0).toProcess =
          (fetch_sru_records s 1 GLOBAL_RUN_LIMIT).celex.filter (fun c => decide (c ∉ P0)) :=
        mainRun_toProcess_small s stripF resp (fun _ => true) P0 hsmall
      simp only [Finset.mem_union, List.mem_toFinset, not_or] at hxP1
      rcases hxP1 with ⟨hxP0, hxflt⟩
      have hxtp : x ∈ (mainRun s stripF resp (fun _ => true) P0).toProcess := by
        rw [htp, List.mem_filter]
        refine ⟨hxA, ?_⟩
        simpa using hxP0
      have hxfl : x ∈ (chunkList BATCH_SIZE
          (mainRun s stripF resp (fun _ => true) P0).toProcess).flatten := by
        rw [chunkList_flatten BATCH_SIZE (by decide)]
        exact hxtp
      rcases List.mem_flatten.mp hxfl with ⟨ch, hch, hxch⟩
      by_cases hdata : processBatch stripF resp ch = []
      · simp only [processBatch, List.filterMap_eq_nil_iff] at hdata
        exact hdata x hxch
      · exfalso
        apply hxflt
        refine List.mem_flatten_of_mem ?_ hxch
        rw [List.mem_filter]
        refine ⟨hch, ?_⟩
        simp [List.isEmpty_iff, hdata]
  rcases mainRun_final_eq s stripF resp (fun _ => true)
      ((mainRun s stripF resp (fun _ => true) P0).final.processed) with heq | heq
  · rw [heq]
  · have hnil : ∀ ch ∈ chunkList BATCH_SIZE
        (mainRun s stripF resp (fun _ => true)
          ((mainRun s stripF resp (fun _ => true) P0).final.processed)).toProcess,
        processBatch stripF resp ch = [] := by
      intro ch hch
      simp only [processBatch, List.filterMap_eq_nil_iff]
      intro y hy
      have hytp : y ∈ (mainRun s stripF resp (fun _ => true)
          ((mainRun s stripF resp (fun _ => true) P0).final.processed)).toProcess := by
        have hm := List.mem_flatten_of_mem hch hy
        rwa [chunkList_flatten BATCH_SIZE (by decide)] at hm
      refine hkey y ?_ ?_
      · exact (toProcess_sublist_celex s stripF resp _ _).subset hytp
      · exact toProcess_not_in_P0 s stripF resp _ _ y hytp
    rw [heq, deliverLoop_skip_all _ _ _ _ hnil]

/-- Closed instance of C8 at a concrete compliant one-record catalog. -/
theorem idempotency_witness :
    (mainRun serverOne id respLong (fun _ => true)
      ((mainRun serverOne id respLong (fun _ => true) ∅).final.processed)).final.sinkCalls
      = [] :=
  idempotency serverOne id respLong ∅ serverOne_comp

/-! ### Per-identifier record accounting -/

theorem acceptedRecord_url {stripF : String → String}
    {resp : String → Nat → Option String} {c : String} {rec : Record}
    (h : acceptedRecord stripF resp c = some rec) : rec.url = eurlexUrl c := by
  simp only [acceptedRecord] at h
  split at h
  · cases h
  · split at h
    · cases h
      rfl
    · cases h

theorem eurlexUrl_inj {a b : String} (h : eurlexUrl a = eurlexUrl b) : a = b := by
  have hd := congrArg String.data h
  simp only [eurlexUrl, String.data_append] at hd
  exact String.ext (List.append_cancel_left hd)

theorem countP_unique {α : Type} (q : α → Bool) (c : α) [DecidableEq α]
    (huniq : ∀ d, q d = true → d = c) :
    ∀ ch : List α, ch.Nodup →
      ch.countP q = if c ∈ ch ∧ q c = true then 1 else 0 := by
  intro ch
  induction ch with
  | nil => intro _; simp
  | cons d rest ih =>
    intro hnd
    rcases List.nodup_cons.mp hnd with ⟨hdnot, hndr⟩
    rw [List.countP_cons, ih hndr]
    cases hqd : q d with
    | true =>
      have hdc : d = c := huniq d hqd
      subst hdc
      simp [hdnot, hqd]
    | false =>
      by_cases hcd : c = d
      · subst hcd
        simp [hqd]
      · simp only [List.mem_cons, hqd]
        have : (c = d ∨ c ∈ rest) ↔ c ∈ rest := by
          constructor
          · rintro (h | h)
            · exact absurd h hcd
            · exact h
          · exact Or.inr
        rw [if_congr (and_congr_left (fun _ => this)) rfl rfl]
        simp

theorem filterMap_count_unique (f : String → Option Record) (rec : Record) (c : String)
    (huniq : ∀ d, f d = some rec → d = c) :
    ∀ ch : List String, ch.Nodup →
      ((ch.filterMap f).count rec) = if c ∈ ch ∧ f c = some rec then 1 else 0 := by
  intro ch hnd
  rw [List.count_eq_countP, List.countP_filterMap]
  have huniq2 : ∀ d, ((f d).map (· == rec)).getD false = true → d = c := by
    intro d hd
    cases hfd : f d with
    | none => rw [hfd] at hd; simp at hd
    | some b =>
      rw [hfd] at hd
      simp at hd
      subst hd
      exact huniq d hfd
  rw [countP_unique _ c huniq2 ch hnd]
  have hiff : ((f c).map (· == rec)).getD false = true ↔ f c = some rec := by
    cases hfc : f c with
    | none => simp
    | some b => simp [beq_iff_eq]
  rw [if_congr (and_congr_right (fun _ => hiff)) rfl rfl]

theorem mainRun_record_source (s : SruServer) (stripF : String → String)
    (resp : String → Nat → Option String) (pushOk : Nat → Bool) (P0 : Finset String)
    (call : List Record) (rec : Record)
    (hcall : call ∈ (mainRun s stripF resp pushOk P0).final.sinkCalls)
    (hrec : rec ∈ call) :
    ∃ d ∈ (mainRun s stripF resp pushOk P0).toProcess,
      acceptedRecord stripF resp d = some rec := by
  rcases mainRun_final_eq s stripF resp pushOk P0 with heq | heq
  · rw [heq] at hcall
    cases hcall
  · rw [heq] at hcall
    rcases deliverLoop_calls pushOk (processBatch stripF resp) _ _ call hcall with
      hin | ⟨ch, hch, hcalleq⟩
    · cases hin
    · subst hcalleq
      rcases List.mem_filterMap.mp hrec with ⟨d, hd, hacc⟩
      refine ⟨d, ?_, hacc⟩
      have hm := List.mem_flatten_of_mem hch hd
      rwa [chunkList_flatten BATCH_SIZE (by decide)] at hm

theorem mainRun_record_count (s : SruServer) (stripF : String → String)
    (resp : String → Nat → Option String) (pushOk : Nat → Bool) (P0 : Finset String)
    (c : String) (rec : Record) (hok : ∀ n, pushOk n = true)
    (hc : c ∈ (mainRun s stripF resp pushOk P0).toProcess)
    (hacc : acceptedRecord stripF resp c = some rec) :
    ((mainRun s stripF resp pushOk P0).final.sinkCalls.flatten.count rec) = 1 := by
  have huniq : ∀ d, acceptedRecord stripF resp d = some rec → d = c := by
    intro d hd
    exact eurlexUrl_inj ((acceptedRecord_url hd).symm.trans (acceptedRecord_url hacc))
  rcases mainRun_cases s stripF resp pushOk P0 with ⟨_, _, htp⟩ | hfin
  · rw [htp] at hc
    cases hc
  · rw [hfin, deliverLoop_all_ok pushOk (processBatch stripF resp) hok]
    have hndtp : (mainRun s stripF resp pushOk P0).toProcess.Nodup :=
      toProcess_nodup s stripF resp pushOk P0
    have hflat : (chunkList BATCH_SIZE
        (mainRun s stripF resp pushOk P0).toProcess).flatten =
        (mainRun s stripF resp pushOk P0).toProcess :=
      chunkList_flatten BATCH_SIZE (by decide) _
    have hndfl : (chunkList BATCH_SIZE
        (mainRun s stripF resp pushOk P0).toProcess).flatten.Nodup := by
      rw [hflat]; exact hndtp
    rcases List.nodup_flatten.mp hndfl with ⟨hchnd, hchdisj⟩
    have hcfl : c ∈ (chunkList BATCH_SIZE
        (mainRun s stripF resp pushOk P0).toProcess).flatten := by
      rw [hflat]; exact hc
    rcases List.mem_flatten.mp hcfl with ⟨ch0, hch0, hcch0⟩
    have hrecmem : rec ∈ processBatch stripF resp ch0 :=
      List.mem_filterMap.mpr ⟨c, hcch0, hacc⟩
    have hch0F : ch0 ∈ (chunkList BATCH_SIZE
        (mainRun s stripF resp pushOk P0).toProcess).filter
        (fun ch => !(processBatch stripF resp ch).isEmpty) := by
      rw [List.mem_filter]
      refine ⟨hch0, ?_⟩
      have hne : processBatch stripF resp ch0 ≠ [] := by
        intro hcon
        rw [hcon] at hrecmem
        cases hrecmem
      simp [List.isEmpty_iff, hne]
    have hdisjF : (chunkList BATCH_SIZE
        (mainRun s stripF resp pushOk P0).toProcess).filter
        (fun ch => !(processBatch stripF resp ch).isEmpty)
        |>.Pairwise List.Disjoint :=
      hchdisj.sublist (List.filter_sublist _)
    have hndF : ∀ ch ∈ (chunkList BATCH_SIZE
        (mainRun s stripF resp pushOk P0).toProcess).filter
        (fun ch => !(processBatch stripF resp ch).isEmpty), ch.Nodup :=
      fun ch hch => hchnd ch (List.mem_of_mem_filter hch)
    rcases List.append_of_mem hch0F with ⟨pre, post, hdecF⟩
    -- counting over the decomposed list of delivered batches
    simp only [List.flatten_nil, List.nil_append]
    rw [hdecF]
    simp only [List.map_append, List.map_cons, List.flatten_append, List.flatten_cons,
      List.count_append]
    have hprezero : ((pre.map (processBatch stripF resp)).flatten.count rec) = 0 := by
      rw [List.count_eq_zero]
      intro hmem
      rcases List.mem_flatten.mp hmem with ⟨call, hcallm, hrecm⟩
      rcases List.mem_map.mp hcallm with ⟨ch, hchpre, hcalleq⟩
      subst hcalleq
      rcases List.mem_filterMap.mp hrecm with ⟨d, hdch, hdacc⟩
      have hdc : d = c := huniq d hdacc
      subst hdc
      rcases List.pairwise_append.mp (hdecF ▸ hdisjF) with ⟨_, hpost, hcross⟩
      exact hcross ch hchpre ch0 (List.mem_cons_self _ _) hdch hcch0
    have hpostzero : ((post.map (processBatch stripF resp)).flatten.count rec) = 0 := by
      rw [List.count_eq_zero]
      intro hmem
      rcases List.mem_flatten.mp hmem with ⟨call, hcallm, hrecm⟩
      rcases List.mem_map.mp hcallm with ⟨ch, hchpost, hcalleq⟩
      subst hcalleq
      rcases List.mem_filterMap.mp hrecm with ⟨d, hdch, hdacc⟩
      have hdc : d = c := huniq d hdacc
      subst hdc
      rcases List.pairwise_append.mp (hdecF ▸ hdisjF) with ⟨_, hpost, _⟩
      rcases List.pairwise_cons.mp hpost with ⟨hch0post, _⟩
      exact hch0post ch hchpost hcch0 hdch
    have hmid : ((processBatch stripF resp ch0).count rec) = 1 := by
      have hnd0 : ch0.Nodup := hndF ch0 (hdecF ▸ (List.mem_append_right pre (List.mem_cons_self _ _)))
      rw [show processBatch stripF resp ch0 = ch0.filterMap (acceptedRecord stripF resp) from rfl]
      rw [filterMap_count_unique (acceptedRecord stripF resp) rec c huniq ch0 hnd0]
      simp [hcch0, hacc]
    omega

/-- C4 counterexample: one discovered identifier whose content has length
40 (below the threshold): no Record is produced, as the claim says, but
the identifier is NOT marked resolved in the ProcessedSet — its batch
gathered no data, so the push and the checkpoint update are both skipped
(`if not batch_data: continue`), leaving the checkpoint empty. -/
theorem content_filtering_counterexample :
    (mainRun serverOne id respShort (fun _ => true) ∅).final.sinkCalls = [] ∧
    "A" ∉ (mainRun serverOne id respShort (fun _ => true) ∅).final.processed :=
  ⟨by decide, by decide⟩

/-- C4 amended: (1) the set persisted by a run is exactly the initial set
plus the identifiers of the successfully committed batches, so an
identifier whose content is too short is marked resolved if and only if it
sits in a batch that was pushed (some batch member produced a Record and
the push succeeded) — not unconditionally; (2) an identifier whose fetch
is rejected (missing, empty, or length at most 50) contributes no Record
to any delivery; (3) an accepted identifier (for example one with content
length 60) contributes exactly one Record across the run's deliveries when
every push succeeds. -/
theorem content_filtering (s : SruServer) (stripF : String → String)
    (resp : String → Nat → Option String) (pushOk : Nat → Bool) (P0 : Finset String) :
    ((mainRun s stripF resp pushOk P0).final.processed =
      P0 ∪ ((mainRun s stripF resp pushOk P0).final.committed).flatten.toFinset) ∧
    (∀ c, acceptedRecord stripF resp c = none →
      ∀ call ∈ (mainRun s stripF resp pushOk P0).final.sinkCalls, ∀ rec ∈ call,
        rec.url ≠ eurlexUrl c) ∧
    (∀ c rec, (∀ n, pushOk n = true) →
      c ∈ (mainRun s stripF resp pushOk P0).toProcess →
      acceptedRecord stripF resp c = some rec →
      ((mainRun s stripF resp pushOk P0).final.sinkCalls.flatten.count rec) = 1) := by
  refine ⟨?_, ?_, ?_⟩
  · rcases mainRun_final_eq s stripF resp pushOk P0 with heq | heq
    · rw [heq]
      simp
    · rw [heq]
      rcases deliverLoop_processed_committed pushOk (processBatch stripF resp)
        (chunkList BATCH_SIZE (mainRun s stripF resp pushOk P0).toProcess)
        ⟨P0, [], [], none, 0⟩ with ⟨delta, h1, h2⟩
      rw [h1, h2]
      simp
  · intro c hc call hcall rec hrec hurl
    rcases mainRun_record_source s stripF resp pushOk P0 call rec hcall hrec with
      ⟨d, _, hdacc⟩
    have hdc : d = c := eurlexUrl_inj ((acceptedRecord_url hdacc).symm.trans hurl)
    subst hdc
    rw [hc] at hdacc
    cases hdacc
  · intro c rec hok hc hacc
    exact mainRun_record_count s stripF resp pushOk P0 c rec hok hc hacc

/-- Closed instance of the amended C4 on a two-identifier catalog where
"A" has content of length 60 and "B" of length 40: the delivered record
for "A" appears exactly once, and no delivered record belongs to "B"
(whose batch membership still got it committed, per part 1). -/
theorem content_filtering_witness :
    ((mainRun serverAB id respShortB (fun _ => true) ∅).final.sinkCalls.flatten.count
      ⟨eurlexUrl "A", strN 60, SRU_SOURCE⟩) = 1 ∧
    (⟨eurlexUrl "A", strN 60, SRU_SOURCE⟩ : Record).url ≠ eurlexUrl "B" :=
  ⟨(content_filtering serverAB id respShortB (fun _ => true) ∅).2.2 "A"
      ⟨eurlexUrl "A", strN 60, SRU_SOURCE⟩ (fun _ => rfl) (by decide) (by decide),
    (content_filtering serverAB id respShortB (fun _ => true) ∅).2.1 "B" (by decide)
      [⟨eurlexUrl "A", strN 60, SRU_SOURCE⟩] (by decide)
      ⟨eurlexUrl "A", strN 60, SRU_SOURCE⟩ (by decide)⟩

/-! ### Batching -/

theorem filterMap_length_all_isSome (f : String → Option Record) :
    ∀ l : List String, (∀ a ∈ l, (f a).isSome = true) →
      (l.filterMap f).length = l.length := by
  intro l
  induction l with
  | nil => intro _; rfl
  | cons a rest ih =>
    intro h
    rcases Option.isSome_iff_exists.mp (h a (List.mem_cons_self _ _)) with ⟨b, hb⟩
    rw [List.filterMap_cons_some hb]
    simp only [List.length_cons]
    rw [ih (fun x hx => h x (List.mem_cons_of_mem _ hx))]

set_option maxRecDepth 100000 in
set_option maxHeartbeats 4000000 in
/-- C5 counterexample, with the code's constants (`BATCH_SIZE = 200`): the
run's batch loop over 201 identifiers "100".."300", of which one — "100",
landing in the first batch — has empty content and is skipped.  The two
deliveries have sizes 199 and 1: the first, non-final batch does NOT
contain exactly `BATCH_SIZE` accepted Records, because batches are slices
of the identifier list taken before content filtering, not groups of
accepted Records. -/
theorem batching_counterexample :
    ((deliverLoop (fun _ => true) (processBatch id respCex)
        ⟨∅, [], [], none, 0⟩
        (chunkList BATCH_SIZE
          ((List.range 201).map (fun i => toString (100 + i))))).sinkCalls).map
        List.length = [199, 1] ∧ BATCH_SIZE = 200 :=
  ⟨by decide, rfl⟩

/-- C5 amended: (1) an empty batch is never delivered; (2) batches are the
consecutive `BATCH_SIZE`-sized slices of the identifier list: every slice
is non-empty and at most the batch size, and every slice except the last
has exactly the batch size; (3) when every identifier in the run is
accepted (and every push succeeds), the delivered batch sizes are exactly
the slice sizes — capacity-sized except for at most the final one.  In
general a delivered batch holds the accepted Records of its slice, which
can be fewer than the capacity even for a non-final batch. -/
theorem batching (s : SruServer) (stripF stripF2 : String → String)
    (resp resp2 : String → Nat → Option String) (pushOk pushOk2 : Nat → Bool)
    (P0 : Finset String) (bs : Nat) (l : List String) (st : LoopState)
    (hbs : 0 < bs) (hok : ∀ n, pushOk2 n = true)
    (hall : ∀ x ∈ l, (acceptedRecord stripF2 resp2 x).isSome = true) :
    ([] ∉ st.sinkCalls → [] ∉ (mainRun s stripF resp pushOk P0).final.sinkCalls) ∧
    ((∀ ch ∈ chunkList bs l, ch ≠ [] ∧ ch.length ≤ bs) ∧
      (∀ i, i + 1 < (chunkList bs l).length → ((chunkList bs l).getD i []).length = bs)) ∧
    (((deliverLoop pushOk2 (processBatch stripF2 resp2) st (chunkList bs l)).sinkCalls).map
        List.length
      = st.sinkCalls.map List.length ++ (chunkList bs l).map List.length) := by
  refine ⟨?_, ⟨?_, ?_⟩, ?_⟩
  · intro _
    rcases mainRun_final_eq s stripF resp pushOk P0 with heq | heq
    · rw [heq]
      simp
    · rw [heq]
      exact deliverLoop_no_empty pushOk (processBatch stripF resp) _ _ (by simp)
  · exact fun ch hch => chunkGo_shape bs hbs l.length l ch hch
  · exact fun i hi => chunkGo_sizes bs hbs l.length l i le_rfl hi
  · have hfe : (chunkList bs l).filter
        (fun ch => !(processBatch stripF2 resp2 ch).isEmpty) = chunkList bs l := by
      rw [List.filter_eq_self]
      intro ch hch
      have hsh := chunkGo_shape bs hbs l.length l ch hch
      have hlen : (processBatch stripF2 resp2 ch).length = ch.length := by
        refine filterMap_length_all_isSome _ ch ?_
        intro a ha
        refine hall a ?_
        have hm := List.mem_flatten_of_mem hch ha
        rwa [chunkList_flatten bs hbs l] at hm
      have hne : processBatch stripF2 resp2 ch ≠ [] := by
        intro hcon
        rw [hcon] at hlen
        exact hsh.1 (List.length_eq_zero.mp hlen.symm)
      simp [List.isEmpty_iff, hne]
    rw [deliverLoop_all_ok pushOk2 (processBatch stripF2 resp2) hok, hfe]
    simp only [List.map_append, List.map_map]
    congr 1
    refine List.map_congr_left ?_
    intro ch hch
    show (processBatch stripF2 resp2 ch).length = ch.length
    refine filterMap_length_all_isSome _ ch ?_
    intro a ha
    refine hall a ?_
    have hm := List.mem_flatten_of_mem hch ha
    rwa [chunkList_flatten bs hbs l] at hm

set_option maxRecDepth 100000 in
set_option maxHeartbeats 1000000 in
/-- Closed instance of the amended C5: 250 identifiers, batch size 100,
all accepted: the delivered batch sizes equal the slice sizes
100, 100, 50 — capacity-sized except the final one. -/
theorem batching_witness :
    (((deliverLoop (fun _ => true) (processBatch id respLong)
        ⟨∅, [], [], none, 0⟩ (chunkList 100 (List.replicate 250 "x"))).sinkCalls).map
          List.length
      = ([] : List (List Record)).map List.length ++
        (chunkList 100 (List.replicate 250 "x")).map List.length) ∧
    (chunkList 100 (List.replicate 250 "x")).map List.length = [100, 100, 50] :=
  ⟨(batching serverOne id id respShort respLong (fun _ => true) (fun _ => true) ∅
      100 (List.replicate 250 "x") ⟨∅, [], [], none, 0⟩ (by decide) (fun _ => rfl)
      (by decide)).2.2,
    by decide⟩

/-- Closed instance of the amended C2 at the erroring catalog: the errored
second request is the last log entry, and the partial result is
returned. -/
theorem discovery_error_stops_walk_witness :
    ([] : List PageLog) = [] ∧
    (fetch_sru_records serverErr 1 GLOBAL_RUN_LIMIT).celex = ["A"] :=
  discovery_error_stops_walk serverErr 1 GLOBAL_RUN_LIMIT
    [PageLog.mk 1 100 (some (1, some 10))] []
    (PageLog.mk 2 100 none) (by decide) rfl
